import Mathlib

/-!
Shallow embedding of the `indexed_vec` crate (`src/lib.rs`): a growable,
slot-reusing vector (`IndexedVec`) that hands out unique `Index` handles.

Modelling choices:
  * a slot is `Option T`; `none` models the zeroed bit-pattern a vacated
    slot keeps in the Rust code (after `take` swaps `zeroed()` in);
  * the `BitSet` field `open` becomes a `Finset Nat` (field `opn`, since
    `open` is a Lean keyword); `BitSet::iter().nth(0)` is its minimum;
  * `Vec`'s capacity is tracked in a `cap` field; `Vec::with_capacity`,
    `Vec::reserve` and `Vec::push` growth are modelled explicitly;
  * the global `INSTANCE_ID` atomic counter is threaded explicitly through
    arena creation;
  * `assert_instance`'s panic (the ForeignIndex fatal condition) becomes
    `Except.error ()`; unchecked slot reads become `(mem[i]?).bind id`,
    where `none` stands for the garbage an invalid unchecked access yields;
  * `Drop for IndexedVec` is modelled by the list of slot contents it
    actually drops (positions outside `opn`); forgotten slots are omitted.
-/

namespace IVec

/-- Rust: `pub struct Index(usize, usize)`, the pair `(instance, index)`. -/
structure Index where
  ins : Nat
  pos : Nat
  deriving DecidableEq, Repr

/-- Rust: `pub struct IndexedVec<T> { mem: Vec<T>, instance: usize, open: BitSet }`.
The field `instance` is named `inst` and `open` is named `opn` (Lean keywords);
`cap` records `mem.capacity()`. -/
structure IndexedVec (T : Type) where
  mem : List (Option T)
  inst : Nat
  opn : Finset Nat
  cap : Nat
  deriving DecidableEq

variable {T : Type}

/-- Capacity growth performed by `Vec::push` on a full vector
(2015 Rust `Vec`: four slots from empty, otherwise doubling). -/
def growCap (cap : Nat) : Nat := if cap = 0 then 4 else 2 * cap

/-- Capacity after `Vec::reserve(additional)`: no-op when there is already
room for `len + additional`, otherwise amortized (doubling) growth to at
least `len + additional`. -/
def reserveCap (len additional cap : Nat) : Nat :=
  if len + additional ≤ cap then cap else max (2 * cap) (len + additional)

/-- Rust `do_push`: append `value` at position `mem.len()` and return
`Index(self.instance, len)`; `Vec::push` grows the store when full. -/
def do_push (a : IndexedVec T) (value : T) : IndexedVec T × Index :=
  ({ a with
      mem := a.mem ++ [some value],
      cap := if a.mem.length = a.cap then growCap a.cap else a.cap },
    ⟨a.inst, a.mem.length⟩)

/-- Rust `do_fill`: take the lowest open position `h` (when one exists),
remove it from `open`, swap `value` into slot `h` (the stale zeroed
contents are forgotten), and return `Ok(Index(self.instance, h))`;
otherwise give the value back as `Err(value)`. -/
def do_fill (a : IndexedVec T) (value : T) : (IndexedVec T × Index) ⊕ T :=
  if h : a.opn.Nonempty then
    let hole := a.opn.min' h
    Sum.inl
      ({ a with mem := a.mem.set hole (some value), opn := a.opn.erase hole },
        ⟨a.inst, hole⟩)
  else Sum.inr value

/-- Rust `assert_instance`: `true` when the tag matches; on `false` the
caller panics (the ForeignIndex fatal condition). -/
def assert_instance (a : IndexedVec T) (i : Nat) : Bool := i == a.inst

/-- Rust `add`: try `do_fill` first; if there was no hole, `reserve(len / 3)`
when at capacity, then `do_push`. -/
def add (a : IndexedVec T) (value : T) : IndexedVec T × Index :=
  match do_fill a value with
  | Sum.inl r => r
  | Sum.inr v =>
    let len := a.mem.length
    let a' :=
      if len = a.cap then { a with cap := reserveCap len (len / 3) a.cap }
      else a
    do_push a' v

/-- Rust `push`: append directly while `mem.len() != mem.capacity()`,
otherwise fall back to `add`. -/
def push (a : IndexedVec T) (value : T) : IndexedVec T × Index :=
  if a.mem.length ≠ a.cap then do_push a value else add a value

/-- Rust `get`: panic (`Except.error ()`) on a foreign instance tag,
otherwise an unchecked read of slot `index.pos`; `none` models the garbage
an out-of-bounds or vacated unchecked access would yield. -/
def get (a : IndexedVec T) (index : Index) : Except Unit (Option T) :=
  if assert_instance a index.ins then
    Except.ok ((a.mem[index.pos]?).bind id)
  else Except.error ()

/-- Rust `get_mut`: same validation and unchecked read as `get` (the
returned value is the slot contents the mutable reference points at). -/
def get_mut (a : IndexedVec T) (index : Index) : Except Unit (Option T) :=
  if assert_instance a index.ins then
    Except.ok ((a.mem[index.pos]?).bind id)
  else Except.error ()

/-- Rust `swap`: validate the tag, then exchange the slot contents with
`value`, returning the previous contents (and the updated arena). -/
def swap (a : IndexedVec T) (index : Index) (value : T) :
    Except Unit (IndexedVec T × Option T) :=
  if assert_instance a index.ins then
    Except.ok
      ({ a with mem := a.mem.set index.pos (some value) },
        (a.mem[index.pos]?).bind id)
  else Except.error ()

/-- Rust `take`: validate the tag, swap `zeroed()` (modelled `none`) into
the slot, insert the position into `open`, and return the old contents. -/
def take (a : IndexedVec T) (index : Index) :
    Except Unit (IndexedVec T × Option T) :=
  if assert_instance a index.ins then
    Except.ok
      ({ a with
          mem := a.mem.set index.pos none,
          opn := insert index.pos a.opn },
        (a.mem[index.pos]?).bind id)
  else Except.error ()

/-- Rust `remove`: `take` and discard the value. -/
def remove (a : IndexedVec T) (index : Index) : Except Unit (IndexedVec T) :=
  (take a index).map Prod.fst

/-- Rust `with_capacity`: a fresh arena whose tag comes from the global
counter `INSTANCE_ID.fetch_add(1)`, modelled by threading the counter. -/
def with_capacity (T : Type) (ctr capacity : Nat) : IndexedVec T × Nat :=
  ({ mem := [], inst := ctr, opn := ∅, cap := capacity }, ctr + 1)

/-- Rust `new`: `with_capacity(16)`. -/
def new (T : Type) (ctr : Nat) : IndexedVec T × Nat := with_capacity T ctr 16

/-- The slot contents dropped by `Drop for IndexedVec` over the slots of
`l`, whose first slot sits at position `i`: positions in `opn` are
forgotten, all others are dropped (finalized). -/
def finalizeFrom (opn : Finset Nat) : Nat → List (Option T) → List (Option T)
  | _, [] => []
  | i, s :: rest =>
    if i ∈ opn then finalizeFrom opn (i + 1) rest
    else s :: finalizeFrom opn (i + 1) rest

/-- The list of slot contents finalized when the arena is destroyed. -/
def dropFinalized (a : IndexedVec T) : List (Option T) :=
  finalizeFrom a.opn 0 a.mem

/-- The free-set invariant: every open position is in bounds, a position is
open exactly when its slot is logically empty, and the length never exceeds
the capacity. -/
def Inv (a : IndexedVec T) : Prop :=
  (∀ p ∈ a.opn, p < a.mem.length) ∧
  (∀ p, p < a.mem.length → (p ∈ a.opn ↔ a.mem[p]? = some none)) ∧
  a.mem.length ≤ a.cap

/-- A caller-side record of one issued `Index`: the handle, whether it is
still live (not yet consumed by `take`), and the value most recently
stored through it (by the issuing `add`/`push` or a later `swap`). -/
structure Entry (T : Type) where
  idx : Index
  live : Bool
  val : T
  deriving DecidableEq, Repr

/-- A client operation on the arena; `swapIdx`/`takeIdx` refer to an issued
index by its issuance number. -/
inductive Op (T : Type) where
  | add (v : T)
  | push (v : T)
  | swapIdx (j : Nat) (v : T)
  | takeIdx (j : Nat)
  deriving DecidableEq, Repr

/-- The arena together with the history of indices issued to the caller. -/
structure Machine (T : Type) where
  arena : IndexedVec T
  issued : List (Entry T)
  deriving DecidableEq

/-- One client step. Ill-formed operations (unknown issuance numbers,
consumed indices, or a rejected index) leave the machine unchanged. -/
def step (m : Machine T) : Op T → Machine T
  | Op.add v =>
    ⟨(add m.arena v).1, m.issued ++ [⟨(add m.arena v).2, true, v⟩]⟩
  | Op.push v =>
    ⟨(push m.arena v).1, m.issued ++ [⟨(push m.arena v).2, true, v⟩]⟩
  | Op.swapIdx j v =>
    match m.issued[j]? with
    | some e =>
      if e.live then
        match swap m.arena e.idx v with
        | Except.ok r => ⟨r.1, m.issued.set j ⟨e.idx, true, v⟩⟩
        | Except.error _ => m
      else m
    | none => m
  | Op.takeIdx j =>
    match m.issued[j]? with
    | some e =>
      if e.live then
        match take m.arena e.idx with
        | Except.ok r => ⟨r.1, m.issued.set j ⟨e.idx, false, e.val⟩⟩
        | Except.error _ => m
      else m
    | none => m

/-- Run a trace from a fresh arena created at counter `ctr` with capacity
hint `capacity`. -/
def runM (T : Type) (ctr capacity : Nat) (trace : List (Op T)) : Machine T :=
  trace.foldl step ⟨(with_capacity T ctr capacity).1, []⟩

/-- The values currently reachable through live issued indices. -/
def liveVals (issued : List (Entry T)) : List (Option T) :=
  (issued.filter (fun e => e.live)).map (fun e => some e.val)

/-- The number of `add`/`push` operations in a trace. -/
def countInserts : List (Op T) → Nat
  | [] => 0
  | Op.add _ :: rest => countInserts rest + 1
  | Op.push _ :: rest => countInserts rest + 1
  | Op.swapIdx _ _ :: rest => countInserts rest
  | Op.takeIdx _ :: rest => countInserts rest

/-- The machine invariant: the arena invariant holds, every issued index
carries the arena's tag, live entries point at in-bounds occupied slots
holding their recorded value, live entries occupy pairwise distinct
positions, every occupied position belongs to a live entry, and the slots
the destructor would finalize are a permutation of the live values. -/
def MInv (m : Machine T) : Prop :=
  Inv m.arena ∧
  (∀ e ∈ m.issued, e.idx.ins = m.arena.inst) ∧
  (∀ (j : Nat) (e : Entry T), m.issued[j]? = some e → e.live = true →
    e.idx.pos < m.arena.mem.length ∧ e.idx.pos ∉ m.arena.opn ∧
    m.arena.mem[e.idx.pos]? = some (some e.val)) ∧
  (∀ (j k : Nat) (ej ek : Entry T), m.issued[j]? = some ej →
    m.issued[k]? = some ek → ej.live = true → ek.live = true →
    ej.idx.pos = ek.idx.pos → j = k) ∧
  (∀ p, p < m.arena.mem.length → p ∉ m.arena.opn →
    ∃ (j : Nat) (e : Entry T), m.issued[j]? = some e ∧ e.live = true ∧
      e.idx.pos = p) ∧
  List.Perm (dropFinalized m.arena) (liveVals m.issued)

/-- A sequence of insertions: `true` entries use `add`, `false` entries use
`push`. -/
def insertMany (a : IndexedVec T) : List (Bool × T) → IndexedVec T
  | [] => a
  | (b, v) :: rest =>
    insertMany (if b then (add a v).1 else (push a v).1) rest

/-- A sample arena: slot 0 holds 7, slot 1 was vacated (free set `{1}`). -/
def sampleA : IndexedVec Nat :=
  { mem := [some 7, none], inst := 0, opn := {1}, cap := 2 }

/-- A sample arena at capacity with no free slot. -/
def sampleB : IndexedVec Nat :=
  { mem := [some 3], inst := 1, opn := ∅, cap := 1 }

/-! Basic equations for the operations. -/

theorem take_eq_ok (a : IndexedVec T) (index : Index)
    (h : index.ins = a.inst) :
    take a index =
      Except.ok
        ({ a with
            mem := a.mem.set index.pos none,
            opn := insert index.pos a.opn },
          (a.mem[index.pos]?).bind id) := by
  simp [take, assert_instance, h]

theorem swap_eq_ok (a : IndexedVec T) (index : Index) (v : T)
    (h : index.ins = a.inst) :
    swap a index v =
      Except.ok
        ({ a with mem := a.mem.set index.pos (some v) },
          (a.mem[index.pos]?).bind id) := by
  simp [swap, assert_instance, h]

theorem get_eq_ok (a : IndexedVec T) (index : Index)
    (h : index.ins = a.inst) :
    get a index = Except.ok ((a.mem[index.pos]?).bind id) := by
  simp [get, assert_instance, h]

theorem get_mut_eq_ok (a : IndexedVec T) (index : Index)
    (h : index.ins = a.inst) :
    get_mut a index = Except.ok ((a.mem[index.pos]?).bind id) := by
  simp [get_mut, assert_instance, h]

theorem get_foreign (a : IndexedVec T) (index : Index)
    (h : index.ins ≠ a.inst) : get a index = Except.error () := by
  simp [get, assert_instance, h]

theorem get_mut_foreign (a : IndexedVec T) (index : Index)
    (h : index.ins ≠ a.inst) : get_mut a index = Except.error () := by
  simp [get_mut, assert_instance, h]

theorem swap_foreign (a : IndexedVec T) (index : Index) (v : T)
    (h : index.ins ≠ a.inst) : swap a index v = Except.error () := by
  simp [swap, assert_instance, h]

theorem take_foreign (a : IndexedVec T) (index : Index)
    (h : index.ins ≠ a.inst) : take a index = Except.error () := by
  simp [take, assert_instance, h]

theorem remove_foreign (a : IndexedVec T) (index : Index)
    (h : index.ins ≠ a.inst) : remove a index = Except.error () := by
  simp [remove, take_foreign a index h, Except.map]

theorem get_isOk (a : IndexedVec T) (idx : Index) (h : idx.ins = a.inst) :
    (get a idx).isOk = true := by
  rw [get_eq_ok a idx h]; rfl

theorem get_mut_isOk (a : IndexedVec T) (idx : Index)
    (h : idx.ins = a.inst) : (get_mut a idx).isOk = true := by
  rw [get_mut_eq_ok a idx h]; rfl

theorem swap_isOk (a : IndexedVec T) (idx : Index) (v : T)
    (h : idx.ins = a.inst) : (swap a idx v).isOk = true := by
  rw [swap_eq_ok a idx v h]; rfl

theorem take_isOk (a : IndexedVec T) (idx : Index) (h : idx.ins = a.inst) :
    (take a idx).isOk = true := by
  rw [take_eq_ok a idx h]; rfl

theorem remove_isOk (a : IndexedVec T) (idx : Index)
    (h : idx.ins = a.inst) : (remove a idx).isOk = true := by
  rw [remove, take_eq_ok a idx h]; rfl

theorem add_eq_fill (a : IndexedVec T) (v : T) (h : a.opn.Nonempty) :
    add a v =
      ({ a with
          mem := a.mem.set (a.opn.min' h) (some v),
          opn := a.opn.erase (a.opn.min' h) },
        ⟨a.inst, a.opn.min' h⟩) := by
  simp [add, do_fill, dif_pos h]

theorem add_eq_append (a : IndexedVec T) (v : T) (h : ¬ a.opn.Nonempty) :
    add a v =
      do_push
        (if a.mem.length = a.cap then
          { a with cap := reserveCap a.mem.length (a.mem.length / 3) a.cap }
        else a) v := by
  simp [add, do_fill, dif_neg h]

theorem push_eq_append (a : IndexedVec T) (v : T) (h : a.mem.length ≠ a.cap) :
    push a v = do_push a v := by
  simp [push, h]

theorem push_eq_add (a : IndexedVec T) (v : T) (h : a.mem.length = a.cap) :
    push a v = add a v := by
  simp [push, h]

/-! Invariant lemmas. -/

theorem growCap_gt (cap : Nat) : cap < growCap cap := by
  unfold growCap; split <;> omega

theorem inv_with_capacity (T : Type) (ctr capacity : Nat) :
    Inv (with_capacity T ctr capacity).1 := by
  refine ⟨?_, ?_, ?_⟩ <;> simp [with_capacity]

theorem do_push_inv (a : IndexedVec T) (v : T) (ha : Inv a) :
    Inv (do_push a v).1 := by
  obtain ⟨h1, h2, h3⟩ := ha
  refine ⟨?_, ?_, ?_⟩
  · intro p hp
    simp only [do_push, List.length_append, List.length_cons,
      List.length_nil]
    exact Nat.lt_succ_of_lt (h1 p hp)
  · intro p hp
    simp only [do_push, List.length_append, List.length_cons,
      List.length_nil] at hp
    simp only [do_push]
    rcases Nat.lt_or_ge p a.mem.length with hlt | hge
    · rw [List.getElem?_append_left hlt]
      exact h2 p hlt
    · have hpe : p = a.mem.length := by omega
      subst hpe
      rw [List.getElem?_concat_length]
      constructor
      · intro hmem; exact absurd (h1 _ hmem) (Nat.lt_irrefl _)
      · intro hcontra; simp at hcontra
  · simp only [do_push, List.length_append, List.length_cons,
      List.length_nil]
    split
    · have := growCap_gt a.cap; omega
    · omega

theorem add_fill_inv (a : IndexedVec T) (v : T) (h : a.opn.Nonempty)
    (ha : Inv a) : Inv (add a v).1 := by
  obtain ⟨h1, h2, h3⟩ := ha
  rw [add_eq_fill a v h]
  have hhole : a.opn.min' h ∈ a.opn := a.opn.min'_mem h
  have hlt : a.opn.min' h < a.mem.length := h1 _ hhole
  refine ⟨?_, ?_, ?_⟩
  · intro p hp
    rw [List.length_set]
    exact h1 p (Finset.mem_of_mem_erase hp)
  · intro p hp
    rw [List.length_set] at hp
    by_cases hpe : p = a.opn.min' h
    · subst hpe
      rw [List.getElem?_set_eq_of_lt _ hlt]
      simp [Finset.mem_erase]
    · rw [List.getElem?_set_ne (fun hc => hpe hc.symm)]
      rw [Finset.mem_erase]
      have := h2 p hp
      tauto
  · rw [List.length_set]; exact h3

theorem add_inv (a : IndexedVec T) (v : T) (ha : Inv a) :
    Inv (add a v).1 := by
  by_cases h : a.opn.Nonempty
  · exact add_fill_inv a v h ha
  · rw [add_eq_append a v h]
    refine do_push_inv _ v ?_
    obtain ⟨h1, h2, h3⟩ := ha
    split
    · refine ⟨h1, h2, ?_⟩
      simp only [reserveCap]
      split <;> omega
    · exact ⟨h1, h2, h3⟩

theorem push_inv (a : IndexedVec T) (v : T) (ha : Inv a) :
    Inv (push a v).1 := by
  by_cases h : a.mem.length = a.cap
  · rw [push_eq_add a v h]; exact add_inv a v ha
  · rw [push_eq_append a v h]; exact do_push_inv a v ha

theorem take_state_inv (a : IndexedVec T) (p : Nat) (ha : Inv a)
    (hlt : p < a.mem.length) :
    Inv { a with mem := a.mem.set p none, opn := insert p a.opn } := by
  obtain ⟨h1, h2, h3⟩ := ha
  refine ⟨?_, ?_, ?_⟩
  · intro q hq
    rw [List.length_set]
    rcases Finset.mem_insert.1 hq with hqe | hqo
    · omega
    · exact h1 q hqo
  · intro q hq
    rw [List.length_set] at hq
    by_cases hqe : q = p
    · subst hqe
      rw [List.getElem?_set_eq_of_lt _ hlt]
      simp
    · rw [List.getElem?_set_ne (fun hc => hqe hc.symm)]
      rw [Finset.mem_insert]
      have := h2 q hq
      tauto
  · rw [List.length_set]; exact h3

theorem swap_state_inv (a : IndexedVec T) (p : Nat) (v : T) (ha : Inv a)
    (hlt : p < a.mem.length) (hocc : p ∉ a.opn) :
    Inv { a with mem := a.mem.set p (some v) } := by
  obtain ⟨h1, h2, h3⟩ := ha
  refine ⟨?_, ?_, ?_⟩
  · intro q hq
    rw [List.length_set]
    exact h1 q hq
  · intro q hq
    rw [List.length_set] at hq
    by_cases hqe : q = p
    · subst hqe
      rw [List.getElem?_set_eq_of_lt _ hlt]
      simp [hocc]
    · rw [List.getElem?_set_ne (fun hc => hqe hc.symm)]
      exact h2 q hq
  · rw [List.length_set]; exact h3

theorem inv_occupied_some (a : IndexedVec T) (p : Nat) (ha : Inv a)
    (hlt : p < a.mem.length) (hocc : p ∉ a.opn) :
    ∃ v : T, a.mem[p]? = some (some v) := by
  obtain ⟨h1, h2, h3⟩ := ha
  obtain ⟨s, hs⟩ : ∃ s, a.mem[p]? = some s := ⟨a.mem[p],
    List.getElem?_eq_getElem hlt⟩
  cases s with
  | none => exact absurd ((h2 p hlt).2 hs) hocc
  | some v => exact ⟨v, hs⟩

/-! Claim theorems: insertion placement, instance isolation, accessors. -/

/-- C2: `add` stores the value in the lowest-numbered free slot when the
free set is non-empty (removing that position from the free set and
returning an `Index` with the arena's tag and that position); otherwise it
appends at position `len(slots)`, growing the backing store when it is at
capacity. -/
theorem add_placement (a : IndexedVec T) (v : T) :
    (∀ hole : Nat, hole ∈ a.opn → (∀ q ∈ a.opn, hole ≤ q) →
      add a v =
        ({ a with mem := a.mem.set hole (some v), opn := a.opn.erase hole },
          ⟨a.inst, hole⟩)) ∧
    (a.opn = ∅ →
      (add a v).2 = ⟨a.inst, a.mem.length⟩ ∧
      (add a v).1.mem = a.mem ++ [some v] ∧
      (add a v).1.opn = a.opn ∧
      (a.mem.length = a.cap → a.cap < (add a v).1.cap)) := by
  constructor
  · intro hole hmem hle
    have hne : a.opn.Nonempty := ⟨hole, hmem⟩
    have hmin : a.opn.min' hne = hole :=
      le_antisymm (a.opn.min'_le hole hmem) (hle _ (a.opn.min'_mem hne))
    rw [add_eq_fill a v hne, hmin]
  · intro hempty
    have hne : ¬ a.opn.Nonempty := by simp [hempty]
    rw [add_eq_append a v hne]
    refine ⟨?_, ?_, ?_, ?_⟩
    · by_cases hcap : a.mem.length = a.cap <;> simp [do_push, hcap]
    · by_cases hcap : a.mem.length = a.cap <;> simp [do_push, hcap]
    · by_cases hcap : a.mem.length = a.cap <;> simp [do_push, hcap]
    · intro hcap
      rw [if_pos hcap]
      simp only [do_push]
      by_cases h3 : a.mem.length + a.mem.length / 3 ≤ a.cap
      · have hrc : reserveCap a.mem.length (a.mem.length / 3) a.cap = a.cap :=
          if_pos h3
        rw [hrc, if_pos hcap]
        exact growCap_gt a.cap
      · have hrc : reserveCap a.mem.length (a.mem.length / 3) a.cap =
            max (2 * a.cap) (a.mem.length + a.mem.length / 3) := if_neg h3
        have hmax := le_max_right (2 * a.cap) (a.mem.length + a.mem.length / 3)
        rw [hrc, if_neg (by omega)]
        omega

/-- C2 witness: with free set `{1}`, `add` fills slot 1; with an empty free
set at capacity, it appends and the capacity grows. -/
theorem add_placement_witness :
    (add sampleA 5 =
      ({ sampleA with mem := [some 7, some 5], opn := ∅ }, ⟨0, 1⟩)) ∧
    ((add sampleB 5).2 = ⟨1, 1⟩ ∧ (add sampleB 5).1.mem = [some 3, some 5] ∧
      (add sampleB 5).1.opn = sampleB.opn ∧ 1 < (add sampleB 5).1.cap) := by
  constructor
  · have h := (add_placement sampleA 5).1 1 (by decide) (by decide)
    rw [h]; decide
  · have h := (add_placement sampleB 5).2 (by decide)
    refine ⟨h.1.trans (by decide), h.2.1.trans (by decide), h.2.2.1, ?_⟩
    exact h.2.2.2 (by decide)

/-- C3: while `len(slots)` is strictly below capacity, `push` appends at
position `len` even when free slots exist; at capacity it is exactly
`add`. -/
theorem push_placement (a : IndexedVec T) (v : T) (ha : Inv a) :
    a.mem.length ≤ a.cap ∧
    (a.mem.length < a.cap →
      push a v =
        ({ a with mem := a.mem ++ [some v] }, ⟨a.inst, a.mem.length⟩)) ∧
    (a.mem.length = a.cap → push a v = add a v) := by
  refine ⟨ha.2.2, ?_, push_eq_add a v⟩
  intro hlt
  have hne : a.mem.length ≠ a.cap := Nat.ne_of_lt hlt
  rw [push_eq_append a v hne]
  simp [do_push, hne]

/-- C3 witness: `push` on an arena with a free slot but spare capacity
appends rather than filling the hole; the at-capacity case agrees with
`add`. -/
theorem push_placement_witness :
    (push { sampleA with cap := 3 } 5 =
      ({ sampleA with mem := [some 7, none, some 5], cap := 3 },
        ⟨0, 2⟩)) ∧
    push sampleB 9 = add sampleB 9 := by
  constructor
  · have h := (push_placement { sampleA with cap := 3 } 5
      (by unfold Inv sampleA; decide)).2.1 (by decide)
    rw [h]; decide
  · exact (push_placement sampleB 9
      (by unfold Inv sampleB; decide)).2.2 (by decide)

/-- C4: an `Index` whose tag comes from arena A, presented to an arena B
whose tag comes from a creation at a different global-counter value, makes
every operation fail with the fatal ForeignIndex condition (modelled
`Except.error ()`), regardless of B's slots; presented to A itself, no
operation raises that condition. -/
theorem instance_isolation (c₁ c₂ k₁ k₂ : Nat) (hc : c₁ ≠ c₂)
    (A B : IndexedVec T)
    (hA : A.inst = (with_capacity T c₁ k₁).1.inst)
    (hB : B.inst = (with_capacity T c₂ k₂).1.inst)
    (idx : Index) (hIdx : idx.ins = A.inst) (v : T) :
    (get B idx = Except.error () ∧ get_mut B idx = Except.error () ∧
      swap B idx v = Except.error () ∧ take B idx = Except.error () ∧
      remove B idx = Except.error ()) ∧
    ((get A idx).isOk = true ∧ (get_mut A idx).isOk = true ∧
      (swap A idx v).isOk = true ∧ (take A idx).isOk = true ∧
      (remove A idx).isOk = true) := by
  have hne : idx.ins ≠ B.inst := by
    rw [hIdx, hA, hB]
    simpa [with_capacity] using hc
  exact ⟨⟨get_foreign B idx hne, get_mut_foreign B idx hne,
      swap_foreign B idx v hne, take_foreign B idx hne,
      remove_foreign B idx hne⟩,
    get_isOk A idx hIdx, get_mut_isOk A idx hIdx,
    swap_isOk A idx v hIdx, take_isOk A idx hIdx,
    remove_isOk A idx hIdx⟩

/-- C4 witness: an index of the counter-0 arena is rejected by the
counter-1 arena and accepted by its own. -/
theorem instance_isolation_witness :
    (get sampleB ⟨0, 0⟩ = Except.error () ∧
      get_mut sampleB ⟨0, 0⟩ = Except.error () ∧
      swap sampleB ⟨0, 0⟩ 11 = Except.error () ∧
      take sampleB ⟨0, 0⟩ = Except.error () ∧
      remove sampleB ⟨0, 0⟩ = Except.error ()) ∧
    ((get sampleA ⟨0, 0⟩).isOk = true ∧
      (get_mut sampleA ⟨0, 0⟩).isOk = true ∧
      (swap sampleA ⟨0, 0⟩ 11).isOk = true ∧
      (take sampleA ⟨0, 0⟩).isOk = true ∧
      (remove sampleA ⟨0, 0⟩).isOk = true) :=
  instance_isolation 0 1 2 1 (by decide) sampleA sampleB rfl rfl
    ⟨0, 0⟩ rfl 11

/-- C7: on a matching tag and an occupied slot, `swap` returns the old
value and stores the new one; the index is not consumed: the free set is
unchanged and the index keeps working for `get`, `get_mut`, `swap` and
`take` on the updated arena. -/
theorem swap_roundtrip (a : IndexedVec T) (idx : Index) (v old : T)
    (hins : idx.ins = a.inst) (hold : a.mem[idx.pos]? = some (some old)) :
    swap a idx v =
      Except.ok ({ a with mem := a.mem.set idx.pos (some v) }, some old) ∧
    ({ a with mem := a.mem.set idx.pos (some v) } : IndexedVec T).opn =
      a.opn ∧
    get { a with mem := a.mem.set idx.pos (some v) } idx =
      Except.ok (some v) ∧
    get_mut { a with mem := a.mem.set idx.pos (some v) } idx =
      Except.ok (some v) ∧
    (swap { a with mem := a.mem.set idx.pos (some v) } idx old).isOk =
      true ∧
    (take { a with mem := a.mem.set idx.pos (some v) } idx).isOk = true := by
  have hlt : idx.pos < a.mem.length := (List.getElem?_eq_some.1 hold).1
  have hset : (a.mem.set idx.pos (some v))[idx.pos]? = some (some v) :=
    List.getElem?_set_eq_of_lt _ hlt
  refine ⟨?_, rfl, ?_, ?_, ?_, ?_⟩
  · rw [swap_eq_ok a idx v hins, hold]; rfl
  · exact (get_eq_ok { a with mem := a.mem.set idx.pos (some v) } idx
      hins).trans (by rw [hset]; rfl)
  · exact (get_mut_eq_ok { a with mem := a.mem.set idx.pos (some v) } idx
      hins).trans (by rw [hset]; rfl)
  · exact swap_isOk _ idx old hins
  · exact take_isOk _ idx hins

/-- C7 witness: swapping 11 into slot 0 of the sample arena returns 7,
leaves 11 there, and the index keeps working. -/
theorem swap_roundtrip_witness :
    swap sampleA ⟨0, 0⟩ 11 =
      Except.ok
        ({ sampleA with mem := (sampleA.mem).set 0 (some 11) }, some 7) ∧
    ({ sampleA with mem := (sampleA.mem).set 0 (some 11) } :
        IndexedVec Nat).opn = sampleA.opn ∧
    get { sampleA with mem := (sampleA.mem).set 0 (some 11) } ⟨0, 0⟩ =
      Except.ok (some 11) ∧
    get_mut { sampleA with mem := (sampleA.mem).set 0 (some 11) } ⟨0, 0⟩ =
      Except.ok (some 11) ∧
    (swap { sampleA with mem := (sampleA.mem).set 0 (some 11) } ⟨0, 0⟩
      7).isOk = true ∧
    (take { sampleA with mem := (sampleA.mem).set 0 (some 11) }
      ⟨0, 0⟩).isOk = true :=
  swap_roundtrip sampleA ⟨0, 0⟩ 11 7 rfl (by decide)

/-- C8: for a tag-matching index whose position is in bounds and not free,
the slot is occupied (the unchecked, unguarded read is in bounds) and both
`get` and `get_mut` return its element. -/
theorem get_unchecked_safe (a : IndexedVec T) (idx : Index) (ha : Inv a)
    (hins : idx.ins = a.inst) (hlt : idx.pos < a.mem.length)
    (hocc : idx.pos ∉ a.opn) :
    ∃ v : T, a.mem[idx.pos]? = some (some v) ∧
      get a idx = Except.ok (some v) ∧ get_mut a idx = Except.ok (some v) := by
  obtain ⟨v, hv⟩ := inv_occupied_some a idx.pos ha hlt hocc
  refine ⟨v, hv, ?_, ?_⟩
  · rw [get_eq_ok a idx hins]; simp [hv]
  · rw [get_mut_eq_ok a idx hins]; simp [hv]

theorem take_ok_elim (a : IndexedVec T) (idx : Index) (a' : IndexedVec T)
    (out : Option T) (h : take a idx = Except.ok (a', out)) :
    a' = { a with
            mem := a.mem.set idx.pos none,
            opn := insert idx.pos a.opn } ∧
    out = (a.mem[idx.pos]?).bind id := by
  unfold take at h
  by_cases hb : assert_instance a idx.ins
  · rw [if_pos hb] at h
    have h' := Except.ok.inj h
    exact ⟨(congrArg Prod.fst h').symm, (congrArg Prod.snd h').symm⟩
  · rw [if_neg hb] at h
    exact Except.noConfusion h

theorem remove_ok_elim (a : IndexedVec T) (idx : Index) (a' : IndexedVec T)
    (h : remove a idx = Except.ok a') :
    a' = { a with
            mem := a.mem.set idx.pos none,
            opn := insert idx.pos a.opn } := by
  unfold remove take at h
  by_cases hb : assert_instance a idx.ins
  · rw [if_pos hb] at h
    simp only [Except.map] at h
    exact (Except.ok.inj h).symm
  · rw [if_neg hb] at h
    simp only [Except.map] at h
    exact Except.noConfusion h

theorem swap_ok_elim (a : IndexedVec T) (idx : Index) (v : T)
    (a' : IndexedVec T) (out : Option T)
    (h : swap a idx v = Except.ok (a', out)) :
    a' = { a with mem := a.mem.set idx.pos (some v) } ∧
    out = (a.mem[idx.pos]?).bind id := by
  unfold swap at h
  by_cases hb : assert_instance a idx.ins
  · rw [if_pos hb] at h
    have h' := Except.ok.inj h
    exact ⟨(congrArg Prod.fst h').symm, (congrArg Prod.snd h').symm⟩
  · rw [if_neg hb] at h
    exact Except.noConfusion h

/-- C5: the free-set invariant (`opn ⊆ [0, len)`, membership in `opn` is
exactly logical emptiness — hence disjointness from occupied positions —
and `len ≤ cap`) holds for a fresh arena and is preserved by every
operation; `add`/`push` remove the chosen position from the free set,
`take`/`remove` insert the vacated position, `swap` leaves it unchanged,
and `get`/`get_mut` do not modify the arena at all in this model. -/
theorem free_set_invariant (T : Type) :
    (∀ ctr k, Inv (with_capacity T ctr k).1) ∧
    (∀ (a : IndexedVec T) (v : T), Inv a →
      Inv (add a v).1 ∧ (add a v).2.pos ∉ (add a v).1.opn) ∧
    (∀ (a : IndexedVec T) (v : T), Inv a →
      Inv (push a v).1 ∧ (push a v).2.pos ∉ (push a v).1.opn) ∧
    (∀ (a : IndexedVec T) (idx : Index), Inv a → idx.pos < a.mem.length →
      ∀ a' out, take a idx = Except.ok (a', out) →
        Inv a' ∧ idx.pos ∈ a'.opn) ∧
    (∀ (a : IndexedVec T) (idx : Index), Inv a → idx.pos < a.mem.length →
      ∀ a', remove a idx = Except.ok a' → Inv a' ∧ idx.pos ∈ a'.opn) ∧
    (∀ (a : IndexedVec T) (idx : Index) (v : T), Inv a →
      idx.pos < a.mem.length → idx.pos ∉ a.opn →
      ∀ a' out, swap a idx v = Except.ok (a', out) →
        Inv a' ∧ a'.opn = a.opn) := by
  have haddpos : ∀ (a : IndexedVec T) (v : T), Inv a →
      (add a v).2.pos ∉ (add a v).1.opn := by
    intro a v ha
    by_cases h : a.opn.Nonempty
    · rw [add_eq_fill a v h]
      exact Finset.not_mem_erase _ _
    · rw [add_eq_append a v h]
      intro hmem
      by_cases hcap : a.mem.length = a.cap <;>
        simp only [do_push, hcap, if_true, if_false, ite_true, ite_false,
          reduceIte] at hmem <;>
        exact absurd (ha.1 _ hmem) (by omega)
  refine ⟨inv_with_capacity T, ?_, ?_, ?_, ?_, ?_⟩
  · intro a v ha
    exact ⟨add_inv a v ha, haddpos a v ha⟩
  · intro a v ha
    refine ⟨push_inv a v ha, ?_⟩
    by_cases h : a.mem.length = a.cap
    · rw [push_eq_add a v h]
      exact haddpos a v ha
    · rw [push_eq_append a v h]
      intro hmem
      simp only [do_push] at hmem
      exact absurd (ha.1 _ hmem) (by omega)
  · intro a idx ha hlt a' out h
    obtain ⟨ha', _⟩ := take_ok_elim a idx a' out h
    subst ha'
    exact ⟨take_state_inv a idx.pos ha hlt, Finset.mem_insert_self _ _⟩
  · intro a idx ha hlt a' h
    have ha' := remove_ok_elim a idx a' h
    subst ha'
    exact ⟨take_state_inv a idx.pos ha hlt, Finset.mem_insert_self _ _⟩
  · intro a idx v ha hlt hocc a' out h
    obtain ⟨ha', _⟩ := swap_ok_elim a idx v a' out h
    subst ha'
    exact ⟨swap_state_inv a idx.pos v ha hlt hocc, rfl⟩

/-- C5 witness: the invariant holds after an `add` into the sample arena
and after a `take` out of it, with the vacated position entering the free
set. -/
theorem free_set_invariant_witness :
    (Inv (add sampleA 5).1 ∧ (add sampleA 5).2.pos ∉ (add sampleA 5).1.opn) ∧
    (Inv ({ sampleA with mem := [none, none], opn := {0, 1} } :
        IndexedVec Nat) ∧
      (Index.mk 0 0).pos ∈
        ({ sampleA with mem := [none, none], opn := {0, 1} } :
          IndexedVec Nat).opn) :=
  ⟨(free_set_invariant Nat).2.1 sampleA 5 (by unfold Inv sampleA; decide),
    (free_set_invariant Nat).2.2.2.1 sampleA ⟨0, 0⟩
      (by unfold Inv sampleA; decide) (by decide) _ (some 7) rfl⟩

/-- C10: `take`, `remove` and `swap` never change the slot count (the
vacated slot stays in the backing store), and an `add`/`push` changes it
only by appending exactly one slot (hole-filling leaves it unchanged); in
particular the length never decreases. -/
theorem length_never_shrinks (T : Type) :
    (∀ (a : IndexedVec T) (idx : Index) (a' : IndexedVec T) (out : Option T),
      take a idx = Except.ok (a', out) → a'.mem.length = a.mem.length) ∧
    (∀ (a : IndexedVec T) (idx : Index) (a' : IndexedVec T),
      remove a idx = Except.ok a' → a'.mem.length = a.mem.length) ∧
    (∀ (a : IndexedVec T) (idx : Index) (v : T) (a' : IndexedVec T)
        (out : Option T),
      swap a idx v = Except.ok (a', out) → a'.mem.length = a.mem.length) ∧
    (∀ (a : IndexedVec T) (v : T), a.opn.Nonempty →
      (add a v).1.mem.length = a.mem.length) ∧
    (∀ (a : IndexedVec T) (v : T), ¬ a.opn.Nonempty →
      (add a v).1.mem.length = a.mem.length + 1) ∧
    (∀ (a : IndexedVec T) (v : T),
      a.mem.length ≤ (add a v).1.mem.length ∧
      a.mem.length ≤ (push a v).1.mem.length ∧
      ((push a v).1.mem.length = a.mem.length ∨
        (push a v).1.mem.length = a.mem.length + 1)) := by
  have hadd : ∀ (a : IndexedVec T) (v : T),
      (add a v).1.mem.length = a.mem.length ∨
      (add a v).1.mem.length = a.mem.length + 1 := by
    intro a v
    by_cases h : a.opn.Nonempty
    · rw [add_eq_fill a v h]
      exact Or.inl (List.length_set a.mem _ _)
    · rw [add_eq_append a v h]
      right
      by_cases hcap : a.mem.length = a.cap <;> simp [do_push, hcap]
  refine ⟨?_, ?_, ?_, ?_, ?_, ?_⟩
  · intro a idx a' out h
    obtain ⟨ha', _⟩ := take_ok_elim a idx a' out h
    subst ha'
    exact List.length_set a.mem _ _
  · intro a idx a' h
    have ha' := remove_ok_elim a idx a' h
    subst ha'
    exact List.length_set a.mem _ _
  · intro a idx v a' out h
    obtain ⟨ha', _⟩ := swap_ok_elim a idx v a' out h
    subst ha'
    exact List.length_set a.mem _ _
  · intro a v h
    rw [add_eq_fill a v h]
    exact List.length_set a.mem _ _
  · intro a v h
    rw [add_eq_append a v h]
    by_cases hcap : a.mem.length = a.cap <;> simp [do_push, hcap]
  · intro a v
    refine ⟨?_, ?_, ?_⟩
    · rcases hadd a v with h | h <;> omega
    · by_cases h : a.mem.length = a.cap
      · rw [push_eq_add a v h]
        rcases hadd a v with h' | h' <;> omega
      · rw [push_eq_append a v h]
        simp [do_push]
    · by_cases h : a.mem.length = a.cap
      · rw [push_eq_add a v h]
        exact hadd a v
      · rw [push_eq_append a v h]
        right; simp [do_push]

/-- C10 witness: a `take` keeps the two slots, the subsequent hole-filling
`add` keeps them, and the `push` on the two-slot arena with spare capacity
appends a third. -/
theorem length_never_shrinks_witness :
    ((({ sampleA with mem := [none, none], opn := {0, 1} } :
        IndexedVec Nat)).mem.length = sampleA.mem.length) ∧
    (add sampleA 5).1.mem.length = sampleA.mem.length ∧
    sampleA.mem.length ≤ (push sampleA 5).1.mem.length :=
  ⟨(length_never_shrinks Nat).1 sampleA ⟨0, 0⟩ _ (some 7) rfl,
    (length_never_shrinks Nat).2.2.2.1 sampleA 5 (by decide),
    ((length_never_shrinks Nat).2.2.2.2.2 sampleA 5).2.1⟩

/-- C8 witness: index `⟨0, 0⟩` into the sample arena reads 7 through both
accessors. -/
theorem get_unchecked_safe_witness :
    ∃ v : Nat, sampleA.mem[(0 : Nat)]? = some (some v) ∧
      get sampleA ⟨0, 0⟩ = Except.ok (some v) ∧
      get_mut sampleA ⟨0, 0⟩ = Except.ok (some v) :=
  get_unchecked_safe sampleA ⟨0, 0⟩ (by unfold Inv sampleA; decide) rfl
    (by decide) (by decide)

/-! Permutation lemmas about the destructor model and the live values. -/

theorem set_self_of_getElem? {α : Type} :
    ∀ (l : List α) (n : Nat) (a : α), l[n]? = some a → l.set n a = l
  | [], n, a, h => by simp at h
  | x :: rest, 0, a, h => by
    simp only [List.getElem?_cons_zero, Option.some.injEq] at h
    rw [List.set_cons_zero, h]
  | x :: rest, n + 1, a, h => by
    simp only [List.getElem?_cons_succ] at h
    rw [List.set_cons_succ, set_self_of_getElem? rest n a h]

theorem finalizeFrom_congr (s t : Finset Nat) :
    ∀ (l : List (Option T)) (i : Nat),
      (∀ p, i ≤ p → (p ∈ s ↔ p ∈ t)) →
      finalizeFrom s i l = finalizeFrom t i l
  | [], _, _ => rfl
  | x :: rest, i, h => by
    have hi := h i (le_refl i)
    have ht := finalizeFrom_congr s t rest (i + 1) (fun p hp => h p (by omega))
    by_cases hm : i ∈ s
    · simp only [finalizeFrom, if_pos hm, if_pos (hi.1 hm), ht]
    · simp only [finalizeFrom, if_neg hm, if_neg (fun hc => hm (hi.2 hc)), ht]

theorem finalizeFrom_append (s : Finset Nat) :
    ∀ (l₁ l₂ : List (Option T)) (i : Nat),
      finalizeFrom s i (l₁ ++ l₂) =
        finalizeFrom s i l₁ ++ finalizeFrom s (i + l₁.length) l₂
  | [], l₂, i => by simp [finalizeFrom]
  | x :: rest, l₂, i => by
    have ih := finalizeFrom_append s rest l₂ (i + 1)
    have hlen : i + 1 + rest.length = i + (rest.length + 1) := by omega
    by_cases hm : i ∈ s <;>
      simp [finalizeFrom, hm, ih, hlen, List.length_cons]

theorem finalizeFrom_fill (s : Finset Nat) (v : T) :
    ∀ (l : List (Option T)) (j i : Nat), i + j ∈ s → j < l.length →
      List.Perm (finalizeFrom (s.erase (i + j)) i (l.set j (some v)))
        (some v :: finalizeFrom s i l)
  | [], j, i, _, hj => by simp at hj
  | x :: rest, 0, i, hs, _ => by
    simp only [Nat.add_zero] at hs ⊢
    rw [List.set_cons_zero]
    have h1 : i ∉ s.erase i := Finset.not_mem_erase i s
    simp only [finalizeFrom, if_neg h1, if_pos hs]
    have hcongr : finalizeFrom (s.erase i) (i + 1) rest =
        finalizeFrom s (i + 1) rest := by
      refine finalizeFrom_congr _ _ rest (i + 1) (fun p hp => ?_)
      rw [Finset.mem_erase]
      constructor
      · exact fun hc => hc.2
      · exact fun hc => ⟨by omega, hc⟩
    rw [hcongr]
  | x :: rest, j + 1, i, hs, hj => by
    rw [List.set_cons_succ]
    have heq : i + (j + 1) = (i + 1) + j := by omega
    rw [heq] at hs ⊢
    have hj' : j < rest.length := by
      simp only [List.length_cons] at hj; omega
    have ih := finalizeFrom_fill s v rest j (i + 1) hs hj'
    by_cases hm : i ∈ s
    · have hm' : i ∈ s.erase ((i + 1) + j) :=
        Finset.mem_erase.2 ⟨by omega, hm⟩
      simp only [finalizeFrom, if_pos hm, if_pos hm']
      exact ih
    · have hm' : i ∉ s.erase ((i + 1) + j) :=
        fun hc => hm (Finset.mem_erase.1 hc).2
      simp only [finalizeFrom, if_neg hm, if_neg hm']
      exact (ih.cons x).trans (List.Perm.swap (some v) x _)

theorem liveVals_cons (x : Entry T) (l : List (Entry T)) :
    liveVals (x :: l) =
      if x.live then some x.val :: liveVals l else liveVals l := by
  by_cases hx : x.live <;> simp [liveVals, hx]

theorem liveVals_append_live (issued : List (Entry T)) (idx : Index)
    (v : T) :
    liveVals (issued ++ [⟨idx, true, v⟩]) = liveVals issued ++ [some v] := by
  simp [liveVals]

theorem liveVals_set_dead :
    ∀ (issued : List (Entry T)) (j : Nat) (e : Entry T),
      issued[j]? = some e → e.live = true →
      List.Perm (liveVals issued)
        (some e.val :: liveVals (issued.set j ⟨e.idx, false, e.val⟩))
  | [], j, e, h, _ => by simp at h
  | x :: rest, 0, e, h, hl => by
    simp only [List.getElem?_cons_zero, Option.some.injEq] at h
    subst h
    rw [List.set_cons_zero, liveVals_cons, liveVals_cons, if_pos hl]
    simp
  | x :: rest, j + 1, e, h, hl => by
    simp only [List.getElem?_cons_succ] at h
    have ih := liveVals_set_dead rest j e h hl
    rw [List.set_cons_succ, liveVals_cons, liveVals_cons]
    by_cases hx : x.live
    · rw [if_pos hx, if_pos hx]
      exact (ih.cons _).trans (List.Perm.swap (some e.val) (some x.val) _)
    · rw [if_neg hx, if_neg hx]
      exact ih

theorem liveVals_set_val :
    ∀ (issued : List (Entry T)) (j : Nat) (e : Entry T) (v : T),
      issued[j]? = some e → e.live = true →
      List.Perm (liveVals (issued.set j ⟨e.idx, true, v⟩))
        (some v :: liveVals (issued.set j ⟨e.idx, false, e.val⟩))
  | [], j, e, v, h, _ => by simp at h
  | x :: rest, 0, e, v, h, hl => by
    simp only [List.getElem?_cons_zero, Option.some.injEq] at h
    subst h
    rw [List.set_cons_zero, List.set_cons_zero, liveVals_cons, liveVals_cons]
    simp
  | x :: rest, j + 1, e, v, h, hl => by
    simp only [List.getElem?_cons_succ] at h
    have ih := liveVals_set_val rest j e v h hl
    rw [List.set_cons_succ, List.set_cons_succ, liveVals_cons, liveVals_cons]
    by_cases hx : x.live
    · rw [if_pos hx, if_pos hx]
      exact (ih.cons _).trans (List.Perm.swap (some v) (some x.val) _)
    · rw [if_neg hx, if_neg hx]
      exact ih

theorem dropFinalized_fill_at (s : Finset Nat) (mem : List (Option T))
    (p : Nat) (v : T) (hp : p ∈ s) (hlt : p < mem.length) :
    List.Perm (finalizeFrom (s.erase p) 0 (mem.set p (some v)))
      (some v :: finalizeFrom s 0 mem) := by
  simpa using finalizeFrom_fill s v mem p 0 (by simpa) hlt

theorem dropFinalized_extract (a : IndexedVec T) (p : Nat) (w : T)
    (hlt : p < a.mem.length) (hocc : p ∉ a.opn)
    (hslot : a.mem[p]? = some (some w)) :
    List.Perm (finalizeFrom a.opn 0 a.mem)
      (some w :: finalizeFrom (insert p a.opn) 0 (a.mem.set p none)) := by
  have h1 : (insert p a.opn).erase p = a.opn := Finset.erase_insert hocc
  have h2 : (a.mem.set p none).set p (some w) = a.mem := by
    rw [List.set_set]
    exact set_self_of_getElem? a.mem p (some w) hslot
  have h3 := dropFinalized_fill_at (insert p a.opn) (a.mem.set p none) p w
    (Finset.mem_insert_self p a.opn) (by rwa [List.length_set])
  rw [h1, h2] at h3
  exact h3

theorem dropFinalized_swap_at (a : IndexedVec T) (p : Nat) (v : T)
    (hlt : p < a.mem.length) (hocc : p ∉ a.opn) :
    List.Perm (finalizeFrom a.opn 0 (a.mem.set p (some v)))
      (some v :: finalizeFrom (insert p a.opn) 0 (a.mem.set p none)) := by
  have h1 : (insert p a.opn).erase p = a.opn := Finset.erase_insert hocc
  have h3 := dropFinalized_fill_at (insert p a.opn) (a.mem.set p none) p v
    (Finset.mem_insert_self p a.opn) (by rwa [List.length_set])
  rw [h1, List.set_set] at h3
  exact h3

theorem getElem?_append_single {α : Type} (l : List α) (x : α) (j : Nat) :
    (l ++ [x])[j]? =
      if j < l.length then l[j]?
      else if j = l.length then some x else none := by
  by_cases h1 : j < l.length
  · rw [if_pos h1, List.getElem?_append_left h1]
  · rw [if_neg h1]
    by_cases h2 : j = l.length
    · subst h2
      rw [if_pos rfl, List.getElem?_concat_length]
    · rw [if_neg h2]
      apply List.getElem?_eq_none
      simp only [List.length_append, List.length_cons, List.length_nil]
      omega

/-- Case analysis for `add`: either the lowest hole is filled, or the value
is appended. -/
theorem add_case (a : IndexedVec T) (v : T) :
    (∃ hole, hole ∈ a.opn ∧
      (add a v).1.mem = a.mem.set hole (some v) ∧
      (add a v).1.opn = a.opn.erase hole ∧
      (add a v).2 = ⟨a.inst, hole⟩ ∧ (add a v).1.inst = a.inst) ∨
    ((add a v).1.mem = a.mem ++ [some v] ∧ (add a v).1.opn = a.opn ∧
      (add a v).2 = ⟨a.inst, a.mem.length⟩ ∧
      (add a v).1.inst = a.inst) := by
  by_cases h : a.opn.Nonempty
  · rw [add_eq_fill a v h]
    exact Or.inl ⟨a.opn.min' h, a.opn.min'_mem h, rfl, rfl, rfl, rfl⟩
  · rw [add_eq_append a v h]
    right
    by_cases hcap : a.mem.length = a.cap <;> simp [do_push, hcap]

/-- Case analysis for `push`: same two outcomes as `add`. -/
theorem push_case (a : IndexedVec T) (v : T) :
    (∃ hole, hole ∈ a.opn ∧
      (push a v).1.mem = a.mem.set hole (some v) ∧
      (push a v).1.opn = a.opn.erase hole ∧
      (push a v).2 = ⟨a.inst, hole⟩ ∧ (push a v).1.inst = a.inst) ∨
    ((push a v).1.mem = a.mem ++ [some v] ∧ (push a v).1.opn = a.opn ∧
      (push a v).2 = ⟨a.inst, a.mem.length⟩ ∧
      (push a v).1.inst = a.inst) := by
  by_cases hcap : a.mem.length = a.cap
  · rw [push_eq_add a v hcap]
    exact add_case a v
  · rw [push_eq_append a v hcap]
    right
    simp [do_push, hcap]

/-- Appending a fresh live entry after an insertion (`add` or `push`)
preserves the machine invariant. -/
theorem MInv_insert (m : Machine T) (v : T) (arena' : IndexedVec T)
    (ix : Index) (hm : MInv m) (hInv' : Inv arena')
    (hcase :
      (∃ hole, hole ∈ m.arena.opn ∧
        arena'.mem = m.arena.mem.set hole (some v) ∧
        arena'.opn = m.arena.opn.erase hole ∧
        ix = ⟨m.arena.inst, hole⟩ ∧ arena'.inst = m.arena.inst) ∨
      (arena'.mem = m.arena.mem ++ [some v] ∧ arena'.opn = m.arena.opn ∧
        ix = ⟨m.arena.inst, m.arena.mem.length⟩ ∧
        arena'.inst = m.arena.inst)) :
    MInv ⟨arena', m.issued ++ [⟨ix, true, v⟩]⟩ := by
  obtain ⟨hInv, hTag, hLive, hInj, hSurj, hPerm⟩ := hm
  unfold MInv
  dsimp only
  rcases hcase with ⟨hole, hh, hmem, hopn, hix, hinst⟩ |
    ⟨hmem, hopn, hix, hinst⟩
  · -- fill case
    have hhl : hole < m.arena.mem.length := hInv.1 hole hh
    have hlen : arena'.mem.length = m.arena.mem.length := by
      rw [hmem, List.length_set]
    have hixpos : ix.pos = hole := by rw [hix]
    have hixins : ix.ins = m.arena.inst := by rw [hix]
    refine ⟨hInv', ?_, ?_, ?_, ?_, ?_⟩
    · intro e he
      rcases List.mem_append.1 he with he | he
      · rw [hinst]; exact hTag e he
      · rw [List.mem_singleton] at he
        subst he
        show ix.ins = arena'.inst
        rw [hixins, hinst]
    · intro k e hk hl
      rw [getElem?_append_single] at hk
      by_cases h1 : k < m.issued.length
      · rw [if_pos h1] at hk
        obtain ⟨hp1, hp2, hp3⟩ := hLive k e hk hl
        have hne : e.idx.pos ≠ hole := fun hc => hp2 (hc ▸ hh)
        refine ⟨by omega, ?_, ?_⟩
        · rw [hopn]
          intro hc
          exact hp2 (Finset.mem_erase.1 hc).2
        · rw [hmem, List.getElem?_set_ne (fun hc => hne hc.symm)]
          exact hp3
      · rw [if_neg h1] at hk
        by_cases h2 : k = m.issued.length
        · rw [if_pos h2] at hk
          have he := Option.some.inj hk
          subst he
          refine ⟨?_, ?_, ?_⟩
          · show ix.pos < arena'.mem.length
            rw [hixpos, hlen]; exact hhl
          · show ix.pos ∉ arena'.opn
            rw [hixpos, hopn]
            exact Finset.not_mem_erase hole m.arena.opn
          · show arena'.mem[ix.pos]? = some (some v)
            rw [hixpos, hmem]
            exact List.getElem?_set_eq_of_lt _ hhl
        · rw [if_neg h2] at hk
          exact Option.noConfusion hk
    · intro k₁ k₂ e₁ e₂ h₁ h₂ hl₁ hl₂ hpos
      rw [getElem?_append_single] at h₁ h₂
      by_cases hk1 : k₁ < m.issued.length <;>
        by_cases hk2 : k₂ < m.issued.length
      · rw [if_pos hk1] at h₁
        rw [if_pos hk2] at h₂
        exact hInj k₁ k₂ e₁ e₂ h₁ h₂ hl₁ hl₂ hpos
      · rw [if_pos hk1] at h₁
        rw [if_neg hk2] at h₂
        by_cases hke2 : k₂ = m.issued.length
        · rw [if_pos hke2] at h₂
          have he2 := Option.some.inj h₂
          obtain ⟨_, hp2, _⟩ := hLive k₁ e₁ h₁ hl₁
          exfalso
          apply hp2
          rw [hpos, ← he2]
          show ix.pos ∈ m.arena.opn
          rw [hixpos]; exact hh
        · rw [if_neg hke2] at h₂
          exact Option.noConfusion h₂
      · rw [if_neg hk1] at h₁
        rw [if_pos hk2] at h₂
        by_cases hke1 : k₁ = m.issued.length
        · rw [if_pos hke1] at h₁
          have he1 := Option.some.inj h₁
          obtain ⟨_, hp2, _⟩ := hLive k₂ e₂ h₂ hl₂
          exfalso
          apply hp2
          rw [← hpos, ← he1]
          show ix.pos ∈ m.arena.opn
          rw [hixpos]; exact hh
        · rw [if_neg hke1] at h₁
          exact Option.noConfusion h₁
      · rw [if_neg hk1] at h₁
        rw [if_neg hk2] at h₂
        by_cases hke1 : k₁ = m.issued.length
        · by_cases hke2 : k₂ = m.issued.length
          · rw [hke1, hke2]
          · rw [if_neg hke2] at h₂
            exact Option.noConfusion h₂
        · rw [if_neg hke1] at h₁
          exact Option.noConfusion h₁
    · intro p hp hpo
      rw [hlen] at hp
      rw [hopn] at hpo
      by_cases hpe : p = hole
      · refine ⟨m.issued.length, ⟨ix, true, v⟩, ?_, rfl, ?_⟩
        · rw [getElem?_append_single]
          simp
        · show ix.pos = p
          rw [hixpos, hpe]
      · have hpnot : p ∉ m.arena.opn := fun hc =>
          hpo (Finset.mem_erase.2 ⟨hpe, hc⟩)
        obtain ⟨k, e, hk, hl, hpos2⟩ := hSurj p hp hpnot
        have hklt : k < m.issued.length := (List.getElem?_eq_some.1 hk).1
        exact ⟨k, e,
          by rw [getElem?_append_single, if_pos hklt]; exact hk, hl, hpos2⟩
    · rw [liveVals_append_live]
      have hstep : List.Perm (dropFinalized arena')
          (some v :: dropFinalized m.arena) := by
        unfold dropFinalized
        rw [hmem, hopn]
        exact dropFinalized_fill_at m.arena.opn m.arena.mem hole v hh hhl
      exact hstep.trans ((hPerm.cons (some v)).trans
        (List.perm_append_singleton (some v) (liveVals m.issued)).symm)
  · -- append case
    have hlen : arena'.mem.length = m.arena.mem.length + 1 := by
      rw [hmem]; simp
    have hlnotopn : m.arena.mem.length ∉ m.arena.opn := fun hc =>
      absurd (hInv.1 _ hc) (lt_irrefl _)
    have hixpos : ix.pos = m.arena.mem.length := by rw [hix]
    have hixins : ix.ins = m.arena.inst := by rw [hix]
    refine ⟨hInv', ?_, ?_, ?_, ?_, ?_⟩
    · intro e he
      rcases List.mem_append.1 he with he | he
      · rw [hinst]; exact hTag e he
      · rw [List.mem_singleton] at he
        subst he
        show ix.ins = arena'.inst
        rw [hixins, hinst]
    · intro k e hk hl
      rw [getElem?_append_single] at hk
      by_cases h1 : k < m.issued.length
      · rw [if_pos h1] at hk
        obtain ⟨hp1, hp2, hp3⟩ := hLive k e hk hl
        refine ⟨by omega, by rw [hopn]; exact hp2, ?_⟩
        rw [hmem, List.getElem?_append_left hp1]
        exact hp3
      · rw [if_neg h1] at hk
        by_cases h2 : k = m.issued.length
        · rw [if_pos h2] at hk
          have he := Option.some.inj hk
          subst he
          refine ⟨?_, ?_, ?_⟩
          · show ix.pos < arena'.mem.length
            rw [hixpos, hlen]; omega
          · show ix.pos ∉ arena'.opn
            rw [hixpos, hopn]; exact hlnotopn
          · show arena'.mem[ix.pos]? = some (some v)
            rw [hixpos, hmem]
            exact List.getElem?_concat_length _ _
        · rw [if_neg h2] at hk
          exact Option.noConfusion hk
    · intro k₁ k₂ e₁ e₂ h₁ h₂ hl₁ hl₂ hpos
      rw [getElem?_append_single] at h₁ h₂
      by_cases hk1 : k₁ < m.issued.length <;>
        by_cases hk2 : k₂ < m.issued.length
      · rw [if_pos hk1] at h₁
        rw [if_pos hk2] at h₂
        exact hInj k₁ k₂ e₁ e₂ h₁ h₂ hl₁ hl₂ hpos
      · rw [if_pos hk1] at h₁
        rw [if_neg hk2] at h₂
        by_cases hke2 : k₂ = m.issued.length
        · rw [if_pos hke2] at h₂
          have he2 := Option.some.inj h₂
          obtain ⟨hp1, _, _⟩ := hLive k₁ e₁ h₁ hl₁
          exfalso
          have hcontra : e₁.idx.pos = m.arena.mem.length := by
            rw [hpos, ← he2]
            show ix.pos = m.arena.mem.length
            rw [hixpos]
          omega
        · rw [if_neg hke2] at h₂
          exact Option.noConfusion h₂
      · rw [if_neg hk1] at h₁
        rw [if_pos hk2] at h₂
        by_cases hke1 : k₁ = m.issued.length
        · rw [if_pos hke1] at h₁
          have he1 := Option.some.inj h₁
          obtain ⟨hp1, _, _⟩ := hLive k₂ e₂ h₂ hl₂
          exfalso
          have hcontra : e₂.idx.pos = m.arena.mem.length := by
            rw [← hpos, ← he1]
            show ix.pos = m.arena.mem.length
            rw [hixpos]
          omega
        · rw [if_neg hke1] at h₁
          exact Option.noConfusion h₁
      · rw [if_neg hk1] at h₁
        rw [if_neg hk2] at h₂
        by_cases hke1 : k₁ = m.issued.length
        · by_cases hke2 : k₂ = m.issued.length
          · rw [hke1, hke2]
          · rw [if_neg hke2] at h₂
            exact Option.noConfusion h₂
        · rw [if_neg hke1] at h₁
          exact Option.noConfusion h₁
    · intro p hp hpo
      rw [hlen] at hp
      rw [hopn] at hpo
      by_cases hpe : p = m.arena.mem.length
      · refine ⟨m.issued.length, ⟨ix, true, v⟩, ?_, rfl, ?_⟩
        · rw [getElem?_append_single]
          simp
        · show ix.pos = p
          rw [hixpos, hpe]
      · have hplt : p < m.arena.mem.length := by omega
        obtain ⟨k, e, hk, hl, hpos2⟩ := hSurj p hplt hpo
        have hklt : k < m.issued.length := (List.getElem?_eq_some.1 hk).1
        exact ⟨k, e,
          by rw [getElem?_append_single, if_pos hklt]; exact hk, hl, hpos2⟩
    · rw [liveVals_append_live]
      have hstep : dropFinalized arena' =
          dropFinalized m.arena ++ [some v] := by
        unfold dropFinalized
        rw [hmem, hopn, finalizeFrom_append]
        simp only [Nat.zero_add]
        congr 1
        simp [finalizeFrom, hlnotopn]
      rw [hstep]
      exact hPerm.append_right [some v]

/-- Every client step preserves the machine invariant. -/
theorem step_MInv (m : Machine T) (op : Op T) (hm : MInv m) :
    MInv (step m op) := by
  obtain ⟨hInv, hTag, hLive, hInj, hSurj, hPerm⟩ := hm
  cases op with
  | add v =>
    exact MInv_insert m v (add m.arena v).1 (add m.arena v).2
      ⟨hInv, hTag, hLive, hInj, hSurj, hPerm⟩ (add_inv m.arena v hInv)
      (add_case m.arena v)
  | push v =>
    exact MInv_insert m v (push m.arena v).1 (push m.arena v).2
      ⟨hInv, hTag, hLive, hInj, hSurj, hPerm⟩ (push_inv m.arena v hInv)
      (push_case m.arena v)
  | swapIdx j v =>
    rcases hj : m.issued[j]? with _ | e
    · have hs : step m (Op.swapIdx j v) = m := by simp [step, hj]
      rw [hs]
      exact ⟨hInv, hTag, hLive, hInj, hSurj, hPerm⟩
    · by_cases hlv : e.live
      · have htag : e.idx.ins = m.arena.inst := hTag e (List.getElem?_mem hj)
        have hok := swap_eq_ok m.arena e.idx v htag
        have hs : step m (Op.swapIdx j v) =
            ⟨{ m.arena with mem := m.arena.mem.set e.idx.pos (some v) },
              m.issued.set j ⟨e.idx, true, v⟩⟩ := by
          simp [step, hj, hlv, hok]
        rw [hs]
        obtain ⟨hp1, hp2, hp3⟩ := hLive j e hj hlv
        have hjlt : j < m.issued.length := (List.getElem?_eq_some.1 hj).1
        unfold MInv
        dsimp only
        refine ⟨swap_state_inv m.arena e.idx.pos v hInv hp1 hp2,
          ?_, ?_, ?_, ?_, ?_⟩
        · intro e' he'
          rcases List.mem_or_eq_of_mem_set he' with he' | he'
          · exact hTag e' he'
          · subst he'
            exact htag
        · intro k e' hk hl'
          by_cases hkj : k = j
          · subst hkj
            rw [List.getElem?_set_eq_of_lt _ hjlt] at hk
            have he' := Option.some.inj hk
            subst he'
            refine ⟨?_, hp2, ?_⟩
            · show e.idx.pos < (m.arena.mem.set e.idx.pos (some v)).length
              rw [List.length_set]
              exact hp1
            · show (m.arena.mem.set e.idx.pos (some v))[e.idx.pos]? =
                some (some v)
              exact List.getElem?_set_eq_of_lt _ hp1
          · rw [List.getElem?_set_ne (fun hc => hkj hc.symm)] at hk
            obtain ⟨hq1, hq2, hq3⟩ := hLive k e' hk hl'
            have hne : e'.idx.pos ≠ e.idx.pos := fun hc =>
              hkj (hInj k j e' e hk hj hl' hlv hc)
            refine ⟨by rw [List.length_set]; exact hq1, hq2, ?_⟩
            rw [List.getElem?_set_ne (fun hc => hne hc.symm)]
            exact hq3
        · intro k₁ k₂ e₁ e₂ h₁ h₂ hl₁ hl₂ hpos
          have hmap : ∀ (k : Nat) (e' : Entry T),
              (m.issued.set j ⟨e.idx, true, v⟩)[k]? = some e' →
              e'.live = true → ∃ e₀ : Entry T, m.issued[k]? = some e₀ ∧
                e₀.live = true ∧ e₀.idx.pos = e'.idx.pos := by
            intro k e' hk hl'
            by_cases hkj : k = j
            · subst hkj
              rw [List.getElem?_set_eq_of_lt _ hjlt] at hk
              have he' := Option.some.inj hk
              subst he'
              exact ⟨e, hj, hlv, rfl⟩
            · rw [List.getElem?_set_ne (fun hc => hkj hc.symm)] at hk
              exact ⟨e', hk, hl', rfl⟩
          obtain ⟨f₁, hf₁, hfl₁, hfp₁⟩ := hmap k₁ e₁ h₁ hl₁
          obtain ⟨f₂, hf₂, hfl₂, hfp₂⟩ := hmap k₂ e₂ h₂ hl₂
          exact hInj k₁ k₂ f₁ f₂ hf₁ hf₂ hfl₁ hfl₂
            (by rw [hfp₁, hfp₂, hpos])
        · intro p hp hpo
          rw [List.length_set] at hp
          obtain ⟨k, e', hk, hl', hpos2⟩ := hSurj p hp hpo
          by_cases hkj : k = j
          · rw [hkj, hj] at hk
            have he' := Option.some.inj hk
            subst he'
            exact ⟨j, ⟨e.idx, true, v⟩,
              by rw [List.getElem?_set_eq_of_lt _ hjlt], rfl, hpos2⟩
          · exact ⟨k, e',
              by rw [List.getElem?_set_ne (fun hc => hkj hc.symm)]; exact hk,
              hl', hpos2⟩
        · have hX := dropFinalized_extract m.arena e.idx.pos e.val hp1 hp2 hp3
          have hnew := dropFinalized_swap_at m.arena e.idx.pos v hp1 hp2
          have hdead := liveVals_set_dead m.issued j e hj hlv
          have hval := liveVals_set_val m.issued j e v hj hlv
          have hXdead := (hX.symm.trans (hPerm.trans hdead)).cons_inv
          exact hnew.trans ((hXdead.cons (some v)).trans hval.symm)
      · have hs : step m (Op.swapIdx j v) = m := by simp [step, hj, hlv]
        rw [hs]
        exact ⟨hInv, hTag, hLive, hInj, hSurj, hPerm⟩
  | takeIdx j =>
    rcases hj : m.issued[j]? with _ | e
    · have hs : step m (Op.takeIdx j) = m := by simp [step, hj]
      rw [hs]
      exact ⟨hInv, hTag, hLive, hInj, hSurj, hPerm⟩
    · by_cases hlv : e.live
      · have htag : e.idx.ins = m.arena.inst := hTag e (List.getElem?_mem hj)
        have hok := take_eq_ok m.arena e.idx htag
        have hs : step m (Op.takeIdx j) =
            ⟨{ m.arena with
                mem := m.arena.mem.set e.idx.pos none,
                opn := insert e.idx.pos m.arena.opn },
              m.issued.set j ⟨e.idx, false, e.val⟩⟩ := by
          simp [step, hj, hlv, hok]
        rw [hs]
        obtain ⟨hp1, hp2, hp3⟩ := hLive j e hj hlv
        have hjlt : j < m.issued.length := (List.getElem?_eq_some.1 hj).1
        unfold MInv
        dsimp only
        refine ⟨take_state_inv m.arena e.idx.pos hInv hp1, ?_, ?_, ?_, ?_, ?_⟩
        · intro e' he'
          rcases List.mem_or_eq_of_mem_set he' with he' | he'
          · exact hTag e' he'
          · subst he'
            exact htag
        · intro k e' hk hl'
          by_cases hkj : k = j
          · subst hkj
            rw [List.getElem?_set_eq_of_lt _ hjlt] at hk
            have he' := Option.some.inj hk
            subst he'
            simp at hl'
          · rw [List.getElem?_set_ne (fun hc => hkj hc.symm)] at hk
            obtain ⟨hq1, hq2, hq3⟩ := hLive k e' hk hl'
            have hne : e'.idx.pos ≠ e.idx.pos := fun hc =>
              hkj (hInj k j e' e hk hj hl' hlv hc)
            refine ⟨by rw [List.length_set]; exact hq1, ?_, ?_⟩
            · intro hc
              rcases Finset.mem_insert.1 hc with hc | hc
              · exact hne hc
              · exact hq2 hc
            · rw [List.getElem?_set_ne (fun hc => hne hc.symm)]
              exact hq3
        · intro k₁ k₂ e₁ e₂ h₁ h₂ hl₁ hl₂ hpos
          have hmap : ∀ (k : Nat) (e' : Entry T),
              (m.issued.set j ⟨e.idx, false, e.val⟩)[k]? = some e' →
              e'.live = true → m.issued[k]? = some e' := by
            intro k e' hk hl'
            by_cases hkj : k = j
            · subst hkj
              rw [List.getElem?_set_eq_of_lt _ hjlt] at hk
              have he' := Option.some.inj hk
              subst he'
              simp at hl'
            · rw [List.getElem?_set_ne (fun hc => hkj hc.symm)] at hk
              exact hk
          exact hInj k₁ k₂ e₁ e₂ (hmap k₁ e₁ h₁ hl₁) (hmap k₂ e₂ h₂ hl₂)
            hl₁ hl₂ hpos
        · intro p hp hpo
          rw [List.length_set] at hp
          have hpne : p ≠ e.idx.pos := fun hc =>
            hpo (hc ▸ Finset.mem_insert_self _ _)
          have hpnot : p ∉ m.arena.opn := fun hc =>
            hpo (Finset.mem_insert_of_mem hc)
          obtain ⟨k, e', hk, hl', hpos2⟩ := hSurj p hp hpnot
          have hkj : k ≠ j := by
            intro hc
            subst hc
            rw [hj] at hk
            have he' := Option.some.inj hk
            subst he'
            exact hpne hpos2.symm
          exact ⟨k, e',
            by rw [List.getElem?_set_ne (fun hc => hkj hc.symm)]; exact hk,
            hl', hpos2⟩
        · have hX := dropFinalized_extract m.arena e.idx.pos e.val hp1 hp2 hp3
          have hdead := liveVals_set_dead m.issued j e hj hlv
          exact (hX.symm.trans (hPerm.trans hdead)).cons_inv
      · have hs : step m (Op.takeIdx j) = m := by simp [step, hj, hlv]
        rw [hs]
        exact ⟨hInv, hTag, hLive, hInj, hSurj, hPerm⟩

/-- Folding client steps from an invariant state keeps the invariant. -/
theorem foldl_MInv (trace : List (Op T)) :
    ∀ ms : Machine T, MInv ms → MInv (trace.foldl step ms) := by
  induction trace with
  | nil => exact fun ms hms => hms
  | cons op rest ih =>
    intro ms hms
    exact ih (step ms op) (step_MInv ms op hms)

/-- The machine invariant holds after running any trace from a fresh
arena. -/
theorem MInv_runM (T : Type) (ctr capacity : Nat) (trace : List (Op T)) :
    MInv (runM T ctr capacity trace) := by
  refine foldl_MInv trace _ ?_
  unfold MInv
  refine ⟨inv_with_capacity T ctr capacity, ?_, ?_, ?_, ?_, ?_⟩
  · intro e he
    simp at he
  · intro j e hj
    simp at hj
  · intro k₁ k₂ e₁ e₂ h₁
    simp at h₁
  · intro p hp
    simp [with_capacity] at hp
  · exact List.Perm.nil

/-- C1: after any trace of `add`/`push`/`swapIdx`/`takeIdx` operations on a
fresh arena, `take` on a still-live issued index returns exactly the value
most recently stored through that index, as recorded by the machine: the
value of the insertion that created it, or of the latest swap through it. -/
theorem take_roundtrip (T : Type) (ctr capacity : Nat)
    (trace : List (Op T)) (j : Nat) (e : Entry T)
    (hj : (runM T ctr capacity trace).issued[j]? = some e)
    (hlive : e.live = true) :
    Except.map Prod.snd (take (runM T ctr capacity trace).arena e.idx) =
      Except.ok (some e.val) := by
  obtain ⟨hInv, hTag, hLive, hInj, hSurj, hPerm⟩ :=
    MInv_runM T ctr capacity trace
  have htag : e.idx.ins = (runM T ctr capacity trace).arena.inst :=
    hTag e (List.getElem?_mem hj)
  obtain ⟨hp1, hp2, hp3⟩ := hLive j e hj hlive
  rw [take_eq_ok _ e.idx htag]
  simp [Except.map, hp3]

/-- C1 witness: `add 10`, `push 20`, swap 30 through the first index; taking
the first index then yields 30. -/
theorem take_roundtrip_witness :
    (runM Nat 0 16 [Op.add 10, Op.push 20, Op.swapIdx 0 30]).issued[0]? =
      some ⟨⟨0, 0⟩, true, 30⟩ ∧
    Except.map Prod.snd
      (take (runM Nat 0 16 [Op.add 10, Op.push 20, Op.swapIdx 0 30]).arena
        (⟨0, 0⟩ : Index)) = Except.ok (some 30) :=
  ⟨by decide,
    take_roundtrip Nat 0 16 [Op.add 10, Op.push 20, Op.swapIdx 0 30] 0
      ⟨⟨0, 0⟩, true, 30⟩ (by decide) rfl⟩

/-- One step changes the number of issued entries by the number of
insertions in it. -/
theorem step_issued_length (m : Machine T) (op : Op T) :
    (step m op).issued.length = m.issued.length + countInserts [op] := by
  cases op with
  | add v => simp [step, countInserts]
  | push v => simp [step, countInserts]
  | swapIdx j v =>
    simp only [countInserts, Nat.add_zero]
    rcases hj : m.issued[j]? with _ | e
    · simp [step, hj]
    · by_cases hlv : e.live
      · rcases hsw : swap m.arena e.idx v with err | r
        · simp [step, hj, hlv, hsw]
        · simp [step, hj, hlv, hsw]
      · simp [step, hj, hlv]
  | takeIdx j =>
    simp only [countInserts, Nat.add_zero]
    rcases hj : m.issued[j]? with _ | e
    · simp [step, hj]
    · by_cases hlv : e.live
      · rcases htk : take m.arena e.idx with err | r
        · simp [step, hj, hlv, htk]
        · simp [step, hj, hlv, htk]
      · simp [step, hj, hlv]

/-- One index is issued per insertion. -/
theorem runM_issued_length (T : Type) (ctr capacity : Nat)
    (trace : List (Op T)) :
    (runM T ctr capacity trace).issued.length = countInserts trace := by
  suffices h : ∀ ms : Machine T,
      (trace.foldl step ms).issued.length =
        ms.issued.length + countInserts trace by
    simpa [runM] using h ⟨(with_capacity T ctr capacity).1, []⟩
  induction trace with
  | nil =>
    intro ms
    simp [countInserts]
  | cons op rest ih =>
    intro ms
    rw [List.foldl_cons, ih (step ms op), step_issued_length]
    cases op <;> simp [countInserts] <;> omega

/-- C6: destroying the arena after any trace finalizes exactly the values
still held by live indices — the finalized slots are a permutation of the
live values, so with `N` insertions and `M` consumed indices exactly
`N − M` values are finalized, each exactly once — and the stale contents of
freed slots are never finalized (every finalized slot holds a value). -/
theorem drop_finalizes_exactly_live (T : Type) (ctr capacity : Nat)
    (trace : List (Op T)) :
    List.Perm (dropFinalized (runM T ctr capacity trace).arena)
      (liveVals (runM T ctr capacity trace).issued) ∧
    (runM T ctr capacity trace).issued.length = countInserts trace ∧
    countInserts trace =
      (dropFinalized (runM T ctr capacity trace).arena).length +
        ((runM T ctr capacity trace).issued.filter
          (fun e => !e.live)).length ∧
    (∀ s ∈ dropFinalized (runM T ctr capacity trace).arena,
      ∃ w : T, s = some w) := by
  obtain ⟨hInv, hTag, hLive, hInj, hSurj, hPerm⟩ :=
    MInv_runM T ctr capacity trace
  have hlen := runM_issued_length T ctr capacity trace
  refine ⟨hPerm, hlen, ?_, ?_⟩
  · have h1 : (dropFinalized (runM T ctr capacity trace).arena).length =
        (liveVals (runM T ctr capacity trace).issued).length :=
      hPerm.length_eq
    have h2 : (liveVals (runM T ctr capacity trace).issued).length =
        ((runM T ctr capacity trace).issued.filter
          (fun e => e.live)).length := by
      simp [liveVals]
    have h3 : (runM T ctr capacity trace).issued.length =
        ((runM T ctr capacity trace).issued.filter
          (fun e => e.live)).length +
        ((runM T ctr capacity trace).issued.filter
          (fun e => !e.live)).length :=
      List.length_eq_length_filter_add _
    omega
  · intro s hs
    have hsl : s ∈ liveVals (runM T ctr capacity trace).issued :=
      hPerm.mem_iff.1 hs
    simp only [liveVals, List.mem_map] at hsl
    obtain ⟨e, _, he⟩ := hsl
    exact ⟨e.val, he.symm⟩

/-- The frame property of one insertion: an occupied slot keeps its
contents, stays occupied and in bounds, and the tag is unchanged. -/
theorem frame_of_case (a f1 : IndexedVec T) (ix : Index) (v : T)
    (hcase :
      (∃ hole, hole ∈ a.opn ∧ f1.mem = a.mem.set hole (some v) ∧
        f1.opn = a.opn.erase hole ∧ ix = ⟨a.inst, hole⟩ ∧
        f1.inst = a.inst) ∨
      (f1.mem = a.mem ++ [some v] ∧ f1.opn = a.opn ∧
        ix = ⟨a.inst, a.mem.length⟩ ∧ f1.inst = a.inst))
    (p : Nat) (hlt : p < a.mem.length) (hocc : p ∉ a.opn) :
    f1.mem[p]? = a.mem[p]? ∧ p < f1.mem.length ∧ p ∉ f1.opn ∧
    f1.inst = a.inst := by
  rcases hcase with ⟨hole, hh, hmem, hopn, _, hinst⟩ |
    ⟨hmem, hopn, _, hinst⟩
  · have hne : p ≠ hole := fun hc => hocc (hc ▸ hh)
    refine ⟨?_, ?_, ?_, hinst⟩
    · rw [hmem, List.getElem?_set_ne hne.symm]
    · rw [hmem, List.length_set]
      exact hlt
    · rw [hopn]
      intro hc
      exact hocc (Finset.mem_erase.1 hc).2
  · refine ⟨?_, ?_, ?_, hinst⟩
    · rw [hmem, List.getElem?_append_left hlt]
    · rw [hmem, List.length_append]
      simp only [List.length_cons, List.length_nil]
      omega
    · rw [hopn]
      exact hocc

/-- Iterated insertions never disturb an occupied slot. -/
theorem insertMany_frame (ops : List (Bool × T)) :
    ∀ (a : IndexedVec T) (p : Nat), Inv a → p < a.mem.length → p ∉ a.opn →
      (insertMany a ops).mem[p]? = a.mem[p]? ∧
      p < (insertMany a ops).mem.length ∧ p ∉ (insertMany a ops).opn ∧
      (insertMany a ops).inst = a.inst ∧ Inv (insertMany a ops) := by
  induction ops with
  | nil => exact fun a p ha hlt hocc => ⟨rfl, hlt, hocc, rfl, ha⟩
  | cons bv rest ih =>
    intro a p ha hlt hocc
    obtain ⟨b, v⟩ := bv
    cases b
    · have hfr := frame_of_case a (push a v).1 (push a v).2 v
        (push_case a v) p hlt hocc
      obtain ⟨hm1, hl1, ho1, hi1, hv1⟩ :=
        ih (push a v).1 p (push_inv a v ha) hfr.2.1 hfr.2.2.1
      exact ⟨hm1.trans hfr.1, hl1, ho1, hi1.trans hfr.2.2.2, hv1⟩
    · have hfr := frame_of_case a (add a v).1 (add a v).2 v
        (add_case a v) p hlt hocc
      obtain ⟨hm1, hl1, ho1, hi1, hv1⟩ :=
        ih (add a v).1 p (add_inv a v ha) hfr.2.1 hfr.2.2.1
      exact ⟨hm1.trans hfr.1, hl1, ho1, hi1.trans hfr.2.2.2, hv1⟩

/-- C9: any sequence of insertions — in particular one exceeding the
initial capacity, which grows the backing store — leaves every valid,
still-live index resolving through `get` to the same value as before, and
changes no occupied slot's contents; indices themselves are immutable
values, so no slot position changes either. -/
theorem growth_transparency (a : IndexedVec T) (ops : List (Bool × T))
    (idx : Index) (ha : Inv a) (hins : idx.ins = a.inst)
    (hlt : idx.pos < a.mem.length) (hocc : idx.pos ∉ a.opn) :
    get (insertMany a ops) idx = get a idx ∧
    (insertMany a ops).mem[idx.pos]? = a.mem[idx.pos]? := by
  obtain ⟨hm, hl, ho, hi, hv⟩ :=
    insertMany_frame ops a idx.pos ha hlt hocc
  refine ⟨?_, hm⟩
  rw [get_eq_ok a idx hins, get_eq_ok (insertMany a ops) idx
    (by rw [hins, hi]), hm]

/-- C9 witness: pushing two values into a full one-slot arena (forcing
growth twice) leaves the original index reading its original value. -/
theorem growth_transparency_witness :
    get (insertMany sampleB [(false, 4), (false, 5)]) ⟨1, 0⟩ =
      get sampleB ⟨1, 0⟩ ∧
    (insertMany sampleB [(false, 4), (false, 5)]).mem[(0 : Nat)]? =
      sampleB.mem[(0 : Nat)]? :=
  growth_transparency sampleB [(false, 4), (false, 5)] ⟨1, 0⟩
    (by unfold Inv sampleB; decide) rfl (by decide) (by decide)

end IVec
